import Mathlib

/-
  Verification of the Fibonacci reference notebook.

  The notebook defines two implementations of `fibonacci`:
  * a hash-map memoized recursive implementation using the global dict `fibs`
    and appending `pybryt.Value` annotations to the global list `map_annots`;
  * a dynamic-programming implementation using a numpy `int64` buffer and
    appending annotations to the global list `dyn_annots`.

  We embed both shallowly: the Python dict becomes an association list with
  insert-or-replace update, global state is threaded explicitly, and the numpy
  `int64` arithmetic becomes wrapping arithmetic on `Int` (two's complement,
  values in `[-2^63, 2^63)`).
-/

namespace PybrytFib

/-! ## Python dict model

`dictGet c k` models `c[k]` / `k in c`; `dictSet c k v` models `c[k] = v`
(replace in place when the key is present, append otherwise). -/

/-- Lookup in a Python-dict model (association list, first match wins). -/
def dictGet : List (Nat × Nat) → Nat → Option Nat
  | [], _ => none
  | (k', v) :: rest, k => if k' = k then some v else dictGet rest k

/-- Assignment `c[k] = v` on a Python-dict model: replace the value in place
when the key is present, append a new entry otherwise. -/
def dictSet : List (Nat × Nat) → Nat → Nat → List (Nat × Nat)
  | [], k, v => [(k, v)]
  | (k', v') :: rest, k, v =>
    if k' = k then (k, v) :: rest else (k', v') :: dictSet rest k v

/-! ## The memoized recursive implementation

State of the notebook session relevant to the hash-map implementation:
the global dict `fibs` and the global list `map_annots` (each annotation
captures a snapshot of `fibs` at append time).  The result record also
carries `steps`, the number of times the line
`f = fibonacci(n-1) + fibonacci(n-2)` was executed (one addition plus one
cache insertion), used for the work-count claims. -/

/-- Global mutable state of the hash-map implementation: the memoization
dict `fibs` and the annotation list `map_annots` (snapshots of `fibs`). -/
structure FibState where
  cache : List (Nat × Nat)
  annots : List (List (Nat × Nat))
  deriving Repr, DecidableEq

/-- Result of one call: returned value, state after the call, and the number
of executions of the compute-and-memoize line during the call. -/
structure FibResult where
  val : Nat
  state : FibState
  steps : Nat
  deriving Repr, DecidableEq

/-- The memoized recursive `fibonacci(n, track=True)` of the notebook:
base cases `0 → 0`, `1 → 1` before any cache interaction; otherwise a cache
hit returns the cached value unchanged, and a miss computes
`fibonacci(n-1) + fibonacci(n-2)` (inner calls with the default
`track=True`), stores the sum under key `n`, appends a snapshot annotation
when `track` is set, and returns the sum. -/
def fibonacci : Nat → Bool → FibState → FibResult
  | 0, _, s => ⟨0, s, 0⟩
  | 1, _, s => ⟨1, s, 0⟩
  | n + 2, track, s =>
    match dictGet s.cache (n + 2) with
    | some v => ⟨v, s, 0⟩
    | none =>
      let r1 := fibonacci (n + 1) true s
      let r2 := fibonacci n true r1.state
      let f := r1.val + r2.val
      let c := dictSet r2.state.cache (n + 2) f
      ⟨f, ⟨c, if track then r2.state.annots ++ [c] else r2.state.annots⟩,
        r1.steps + r2.steps + 1⟩

/-- The canonical Fibonacci function of the specification:
`canonical(0) = 0`, `canonical(1) = 1`,
`canonical(n) = canonical(n-1) + canonical(n-2)` for `n ≥ 2`. -/
def canonicalFib : Nat → Nat
  | 0 => 0
  | 1 => 1
  | n + 2 => canonicalFib (n + 1) + canonicalFib n

/-- The empty starting state of the notebook session:
`fibs = {}`, `map_annots = []`. -/
def initState : FibState := ⟨[], []⟩

/-! ### Cache invariants of the memoized implementation -/

/-- A cache is good when every stored key maps to the canonical Fibonacci
value of that index. -/
def GoodCache (c : List (Nat × Nat)) : Prop :=
  ∀ k v, dictGet c k = some v → v = canonicalFib k

/-! ### Reachable cache shapes

Starting from the empty dict, the cache only ever holds a contiguous segment
of keys `2..m`.  `SegCache c m` captures this shape (no keys at all when
`m ≤ 1`). -/

/-- The cache holds exactly the keys `2..m` (and nothing when `m ≤ 1`). -/
def SegCache (c : List (Nat × Nat)) (m : Nat) : Prop :=
  ∀ k, (dictGet c k).isSome ↔ (2 ≤ k ∧ k ≤ m)

/-! ### The increasing sequence of calls `fibonacci(0), ..., fibonacci(k)`

This models the notebook's timing loop, starting from the empty cache. -/

/-- State after the calls `fibonacci(0), fibonacci(1), ..., fibonacci(k)`
in increasing order from the empty starting state. -/
def fibSeqState : Nat → FibState
  | 0 => (fibonacci 0 false initState).state
  | k + 1 => (fibonacci (k + 1) false (fibSeqState k)).state

/-- Number of compute-and-memoize executions performed by the `j`-th call of
that increasing sequence. -/
def fibSeqCallSteps : Nat → Nat
  | 0 => (fibonacci 0 false initState).steps
  | k + 1 => (fibonacci (k + 1) false (fibSeqState k)).steps

/-- Total number of compute-and-memoize executions across the calls
`fibonacci(0), ..., fibonacci(k)`. -/
def fibSeqSteps : Nat → Nat
  | 0 => fibSeqCallSteps 0
  | k + 1 => fibSeqSteps k + fibSeqCallSteps (k + 1)

/-! ## The dynamic-programming implementation

`fibonacci(n)` allocates `np.zeros(n + 1, dtype=int)` (a signed 64-bit
buffer), sets `fibs[1] = 1` when `n > 0`, runs
`for i in range(2, n + 1): fibs[i] = fibs[i-1] + fibs[i-2]` in wrapping
int64 arithmetic, optionally appends the buffer to `dyn_annots`, and
returns `fibs[n]`. -/

/-- numpy int64 wrap-around: the representative of `z` modulo `2^64` lying
in `[-2^63, 2^63)`. -/
def int64wrap (z : Int) : Int :=
  (z + 9223372036854775808) % 18446744073709551616 - 9223372036854775808

/-- Read `l[i]` from the buffer model (`0` outside the allocated range,
matching the zero initialization). -/
def arrGet : List Int → Nat → Int
  | [], _ => 0
  | x :: _, 0 => x
  | _ :: xs, i + 1 => arrGet xs i

/-- Write `l[i] = v` in the buffer model (no effect outside the range). -/
def arrSet : List Int → Nat → Int → List Int
  | [], _, _ => []
  | _ :: xs, 0, v => v :: xs
  | x :: xs, i + 1, v => x :: arrSet xs i v

/-- One iteration of the fill loop: `fibs[i] = fibs[i-1] + fibs[i-2]` in
wrapping int64 arithmetic. -/
def dpStep (fibs : List Int) (i : Nat) : List Int :=
  arrSet fibs i (int64wrap (arrGet fibs (i - 1) + arrGet fibs (i - 2)))

/-- The loop `for i in range(i0, i0 + cnt)` applying `dpStep`. -/
def dpRun : Nat → Nat → List Int → List Int
  | 0, _, fibs => fibs
  | cnt + 1, i, fibs => dpRun cnt (i + 1) (dpStep fibs i)

/-- The numpy buffer built by the dynamic-programming `fibonacci(n)`:
`np.zeros(n + 1, dtype=int)`, then `fibs[1] = 1` when `n > 0`, then the
fill loop `for i in range(2, n + 1)`. -/
def fib_dp_buffer (n : Nat) : List Int :=
  dpRun (n - 1) 2
    (if 0 < n then arrSet (List.replicate (n + 1) 0) 1 1 else List.replicate (n + 1) 0)

/-- Return value `fibs[n]` of the dynamic-programming implementation. -/
def fib_dp (n : Nat) : Int := arrGet (fib_dp_buffer n) n

/-- The full dynamic-programming call including the `track` side effect on
the global list `dyn_annots` (each annotation captures the buffer). -/
def fib_dp_call (n : Nat) (track : Bool) (dyn : List (List Int)) :
    Int × List (List Int) :=
  (fib_dp n, if track then dyn ++ [fib_dp_buffer n] else dyn)

/-- The int64 Fibonacci recurrence: the values the buffer cells hold. -/
def wrapFib : Nat → Int
  | 0 => 0
  | 1 => 1
  | n + 2 => int64wrap (wrapFib (n + 1) + wrapFib n)

/-- Loop invariant for the fill loop: cells below `i` hold the int64
Fibonacci values, cells from `i` on still hold the initial zeros. -/
def DpInv (l : List Int) (n i : Nat) : Prop :=
  l.length = n + 1 ∧ (∀ j, j < i → arrGet l j = wrapFib j) ∧ ∀ j, i ≤ j → arrGet l j = 0

/-- Linear-time pair form of `canonicalFib`, used to evaluate it at indices
where the naive recursion is infeasible. -/
def fibPair : Nat → Nat × Nat
  | 0 => (0, 1)
  | n + 1 => ((fibPair n).2, (fibPair n).1 + (fibPair n).2)

/-- Linear-time pair form of `wrapFib`. -/
def wrapFibPair : Nat → Int × Int
  | 0 => (0, 1)
  | n + 1 => ((wrapFibPair n).2, int64wrap ((wrapFibPair n).1 + (wrapFibPair n).2))

/-! ## Lemmas and theorems -/

theorem dictGet_dictSet_self (c : List (Nat × Nat)) (k v : Nat) :
    dictGet (dictSet c k v) k = some v := by
  induction c with
  | nil => simp [dictGet, dictSet]
  | cons hd tl ih =>
    obtain ⟨k', v'⟩ := hd
    by_cases h : k' = k
    · simp [dictGet, dictSet, h]
    · simp [dictGet, dictSet, h, ih]

theorem dictGet_dictSet_ne (c : List (Nat × Nat)) (k v j : Nat) (h : j ≠ k) :
    dictGet (dictSet c k v) j = dictGet c j := by
  have h' : k ≠ j := Ne.symm h
  induction c with
  | nil => simp [dictGet, dictSet, h']
  | cons hd tl ih =>
    obtain ⟨k', v'⟩ := hd
    by_cases hk : k' = k
    · subst hk
      simp [dictGet, dictSet, h']
    · by_cases hj : k' = j <;> simp [dictGet, dictSet, hk, hj, ih, h, h']

/-! ### Unfolding lemmas for `fibonacci` -/

theorem fibonacci_zero (track : Bool) (s : FibState) :
    fibonacci 0 track s = ⟨0, s, 0⟩ := rfl

theorem fibonacci_one (track : Bool) (s : FibState) :
    fibonacci 1 track s = ⟨1, s, 0⟩ := rfl

theorem fibonacci_hit (n : Nat) (track : Bool) (s : FibState) (v : Nat)
    (h : dictGet s.cache (n + 2) = some v) :
    fibonacci (n + 2) track s = ⟨v, s, 0⟩ := by
  conv_lhs => unfold fibonacci
  rw [h]

theorem fibonacci_miss (n : Nat) (track : Bool) (s : FibState)
    (h : dictGet s.cache (n + 2) = none) :
    fibonacci (n + 2) track s =
      ⟨(fibonacci (n + 1) true s).val +
          (fibonacci n true (fibonacci (n + 1) true s).state).val,
        ⟨dictSet (fibonacci n true (fibonacci (n + 1) true s).state).state.cache (n + 2)
            ((fibonacci (n + 1) true s).val +
              (fibonacci n true (fibonacci (n + 1) true s).state).val),
          if track then
            (fibonacci n true (fibonacci (n + 1) true s).state).state.annots ++
              [dictSet (fibonacci n true (fibonacci (n + 1) true s).state).state.cache (n + 2)
                ((fibonacci (n + 1) true s).val +
                  (fibonacci n true (fibonacci (n + 1) true s).state).val)]
          else (fibonacci n true (fibonacci (n + 1) true s).state).state.annots⟩,
        (fibonacci (n + 1) true s).steps +
          (fibonacci n true (fibonacci (n + 1) true s).state).steps + 1⟩ := by
  conv_lhs => unfold fibonacci
  rw [h]

theorem canonicalFib_add_two (n : Nat) :
    canonicalFib (n + 2) = canonicalFib (n + 1) + canonicalFib n := by
  simp [canonicalFib]

theorem dictGet_dictSet_cases (c : List (Nat × Nat)) (k0 v0 k v : Nat)
    (h : dictGet (dictSet c k0 v0) k = some v) :
    (k = k0 ∧ v = v0) ∨ dictGet c k = some v := by
  by_cases hk : k = k0
  · subst hk
    rw [dictGet_dictSet_self] at h
    exact Or.inl ⟨rfl, (Option.some.inj h).symm⟩
  · right
    rw [dictGet_dictSet_ne _ _ _ _ hk] at h
    exact h

theorem goodCache_init : GoodCache initState.cache := by
  intro k v h
  simp [initState, dictGet] at h

/-- Correctness with respect to the canonical function: from any good cache,
`fibonacci n` returns the canonical value and leaves the cache good. -/
theorem fib_good (n : Nat) (track : Bool) (s : FibState) (h : GoodCache s.cache) :
    (fibonacci n track s).val = canonicalFib n ∧
      GoodCache (fibonacci n track s).state.cache := by
  induction n using Nat.strong_induction_on generalizing track s with
  | _ n ih =>
    match n with
    | 0 => exact ⟨rfl, h⟩
    | 1 => exact ⟨rfl, h⟩
    | n + 2 =>
      cases hc : dictGet s.cache (n + 2) with
      | some v =>
        rw [fibonacci_hit n track s v hc]
        exact ⟨h _ _ hc, h⟩
      | none =>
        rw [fibonacci_miss n track s hc]
        obtain ⟨h1v, h1g⟩ := ih (n + 1) (by omega) true s h
        obtain ⟨h2v, h2g⟩ := ih n (by omega) true _ h1g
        dsimp only
        constructor
        · rw [h1v, h2v, canonicalFib_add_two]
        · intro k v hkv
          rcases dictGet_dictSet_cases _ _ _ _ _ hkv with ⟨hk, hv⟩ | hold
          · subst hk
            rw [hv, h1v, h2v, canonicalFib_add_two]
          · exact h2g _ _ hold

/-- Cache monotonicity: no call removes a key or changes a stored value. -/
theorem fib_mono (n : Nat) (track : Bool) (s : FibState) (k v : Nat)
    (h : dictGet s.cache k = some v) :
    dictGet (fibonacci n track s).state.cache k = some v := by
  induction n using Nat.strong_induction_on generalizing track s with
  | _ n ih =>
    match n with
    | 0 => exact h
    | 1 => exact h
    | n + 2 =>
      cases hc : dictGet s.cache (n + 2) with
      | some w =>
        rw [fibonacci_hit n track s w hc]
        exact h
      | none =>
        rw [fibonacci_miss n track s hc]
        have h1 := ih (n + 1) (by omega) true s h
        have h2 := ih n (by omega) true _ h1
        have hk : k ≠ n + 2 := by
          intro hk
          subst hk
          rw [h] at hc
          cases hc
        dsimp only
        rw [dictGet_dictSet_ne _ _ _ _ hk]
        exact h2

/-- Every key added by a call lies in the range `2..n`. -/
theorem fib_keys_sub (n : Nat) (track : Bool) (s : FibState) (k : Nat)
    (h : (dictGet (fibonacci n track s).state.cache k).isSome) :
    (dictGet s.cache k).isSome ∨ (2 ≤ k ∧ k ≤ n) := by
  induction n using Nat.strong_induction_on generalizing track s with
  | _ n ih =>
    match n with
    | 0 => exact Or.inl h
    | 1 => exact Or.inl h
    | n + 2 =>
      cases hc : dictGet s.cache (n + 2) with
      | some w =>
        rw [fibonacci_hit n track s w hc] at h
        exact Or.inl h
      | none =>
        rw [fibonacci_miss n track s hc] at h
        dsimp only at h
        by_cases hk : k = n + 2
        · exact Or.inr ⟨by omega, by omega⟩
        · rw [dictGet_dictSet_ne _ _ _ _ hk] at h
          rcases ih n (by omega) true (fibonacci (n + 1) true s).state h with h2 | ⟨hl, hr⟩
          · rcases ih (n + 1) (by omega) true s h2 with h1 | ⟨hl, hr⟩
            · exact Or.inl h1
            · exact Or.inr ⟨hl, by omega⟩
          · exact Or.inr ⟨hl, by omega⟩

/-- After any call with `n ≥ 2`, `n` is cached with the returned value. -/
theorem fib_self_cached (n : Nat) (track : Bool) (s : FibState) (h2 : 2 ≤ n) :
    dictGet (fibonacci n track s).state.cache n = some (fibonacci n track s).val := by
  obtain ⟨m, rfl⟩ : ∃ m, n = m + 2 := ⟨n - 2, by omega⟩
  cases hc : dictGet s.cache (m + 2) with
  | some v =>
    rw [fibonacci_hit m track s v hc]
    exact hc
  | none =>
    rw [fibonacci_miss m track s hc]
    dsimp only
    exact dictGet_dictSet_self _ _ _

/-- The annotation list never shrinks. -/
theorem fib_annots_mono (n : Nat) (track : Bool) (s : FibState) :
    s.annots.length ≤ (fibonacci n track s).state.annots.length := by
  induction n using Nat.strong_induction_on generalizing track s with
  | _ n ih =>
    match n with
    | 0 => exact Nat.le_refl _
    | 1 => exact Nat.le_refl _
    | n + 2 =>
      cases hc : dictGet s.cache (n + 2) with
      | some w =>
        rw [fibonacci_hit n track s w hc]
      | none =>
        rw [fibonacci_miss n track s hc]
        have h1 := ih (n + 1) (by omega) true s
        have h2 := ih n (by omega) true (fibonacci (n + 1) true s).state
        dsimp only
        cases track <;> simp <;> omega

/-- A tracking call on an uncached `n ≥ 2` strictly grows the annotation
list. -/
theorem fib_annots_strict (n : Nat) (s : FibState) (h2 : 2 ≤ n)
    (hc : dictGet s.cache n = none) :
    s.annots.length < (fibonacci n true s).state.annots.length := by
  obtain ⟨m, rfl⟩ : ∃ m, n = m + 2 := ⟨n - 2, by omega⟩
  rw [fibonacci_miss m true s hc]
  have h1 := fib_annots_mono (m + 1) true s
  have h2' := fib_annots_mono m true (fibonacci (m + 1) true s).state
  dsimp only
  simp only [if_pos, List.length_append, List.length_cons, List.length_nil]
  omega

theorem segCache_init : SegCache initState.cache 1 := by
  intro k
  simp [initState, dictGet]
  omega

/-- A call on a segment-shaped cache leaves a segment-shaped cache whose
bound is the maximum of the old bound and the requested index. -/
theorem fib_seg (n : Nat) (track : Bool) (s : FibState) (m : Nat)
    (hm : 1 ≤ m) (hs : SegCache s.cache m) :
    SegCache (fibonacci n track s).state.cache (max m n) := by
  induction n using Nat.strong_induction_on generalizing track s m with
  | _ n ih =>
    match n with
    | 0 =>
      rw [max_eq_left (Nat.zero_le m)]
      exact hs
    | 1 =>
      rw [max_eq_left hm]
      exact hs
    | n + 2 =>
      cases hc : dictGet s.cache (n + 2) with
      | some w =>
        have hmem : 2 ≤ n + 2 ∧ n + 2 ≤ m := by
          have := (hs (n + 2)).mp
          rw [hc] at this
          exact this rfl
        rw [fibonacci_hit n track s w hc, max_eq_left hmem.2]
        exact hs
      | none =>
        have hlt : m ≤ n + 1 := by
          by_contra hgt
          have := (hs (n + 2)).mpr ⟨by omega, by omega⟩
          rw [hc] at this
          cases this
        have hseg1 : SegCache (fibonacci (n + 1) true s).state.cache (n + 1) := by
          have := ih (n + 1) (by omega) true s m hm hs
          rwa [max_eq_right hlt] at this
        have hseg2 :
            SegCache (fibonacci n true (fibonacci (n + 1) true s).state).state.cache (n + 1) := by
          have := ih n (by omega) true (fibonacci (n + 1) true s).state (n + 1) (by omega) hseg1
          rwa [max_eq_left (by omega)] at this
        rw [fibonacci_miss n track s hc, max_eq_right (by omega : m ≤ n + 2)]
        intro k
        dsimp only
        by_cases hk : k = n + 2
        · subst hk
          rw [dictGet_dictSet_self]
          simp
        · rw [dictGet_dictSet_ne _ _ _ _ hk]
          rw [hseg2 k]
          omega

theorem fibSeq_seg (k : Nat) : SegCache (fibSeqState k).cache (max k 1) := by
  induction k with
  | zero => exact segCache_init
  | succ k ih =>
    have := fib_seg (k + 1) false (fibSeqState k) (max k 1) (le_max_right _ _) ih
    have hmax : max (max k 1) (k + 1) = max (k + 1) 1 := by
      rw [max_eq_left (by omega : (1 : Nat) ≤ k + 1)]
      rw [max_assoc, max_eq_right (by omega : (1 : Nat) ≤ k + 1),
        max_eq_right (by omega : k ≤ k + 1)]
    rwa [hmax] at this

/-- A call needing no computation (base case or cache hit) performs zero
compute-and-memoize steps and leaves the state untouched. -/
theorem fib_no_work (n : Nat) (track : Bool) (s : FibState)
    (h : n ≤ 1 ∨ (dictGet s.cache n).isSome) :
    (fibonacci n track s).steps = 0 ∧ (fibonacci n track s).state = s := by
  match n with
  | 0 => exact ⟨rfl, rfl⟩
  | 1 => exact ⟨rfl, rfl⟩
  | n + 2 =>
    rcases h with h | h
    · omega
    · obtain ⟨v, hv⟩ := Option.isSome_iff_exists.mp h
      rw [fibonacci_hit n track s v hv]
      exact ⟨rfl, rfl⟩

theorem fibSeqCallSteps_succ_succ (k : Nat) : fibSeqCallSteps (k + 2) = 1 := by
  have hseg : SegCache (fibSeqState (k + 1)).cache (k + 1) := by
    have := fibSeq_seg (k + 1)
    rwa [max_eq_left (by omega : (1 : Nat) ≤ k + 1)] at this
  have hnone : dictGet (fibSeqState (k + 1)).cache (k + 2) = none := by
    cases hd : dictGet (fibSeqState (k + 1)).cache (k + 2) with
    | none => rfl
    | some v =>
      have := (hseg (k + 2)).mp (by rw [hd]; rfl)
      omega
  show (fibonacci (k + 2) false (fibSeqState (k + 1))).steps = 1
  rw [fibonacci_miss k false (fibSeqState (k + 1)) hnone]
  have h1 := fib_no_work (k + 1) true (fibSeqState (k + 1)) (by
    rcases Nat.lt_or_ge (k + 1) 2 with h | h
    · exact Or.inl (by omega)
    · exact Or.inr ((hseg (k + 1)).mpr ⟨h, Nat.le_refl _⟩))
  have h2 : (fibonacci k true (fibonacci (k + 1) true (fibSeqState (k + 1))).state).steps = 0 := by
    rw [h1.2]
    rcases Nat.lt_or_ge k 2 with h | h
    · exact (fib_no_work k true (fibSeqState (k + 1)) (Or.inl (by omega))).1
    · exact (fib_no_work k true (fibSeqState (k + 1))
        (Or.inr ((hseg k).mpr ⟨h, by omega⟩))).1
  dsimp only
  rw [h1.1, h2]

theorem fibSeqCallSteps_le_one (j : Nat) : fibSeqCallSteps j ≤ 1 := by
  match j with
  | 0 =>
    have h : fibSeqCallSteps 0 = 0 := rfl
    omega
  | 1 =>
    have h : fibSeqCallSteps 1 = 0 := rfl
    omega
  | j + 2 =>
    rw [fibSeqCallSteps_succ_succ]

theorem fibSeqSteps_eq (k : Nat) : fibSeqSteps k = k - 1 := by
  induction k with
  | zero => rfl
  | succ k ih =>
    match k, ih with
    | 0, _ => rfl
    | k + 1, ih =>
      show fibSeqSteps (k + 1) + fibSeqCallSteps (k + 2) = (k + 2) - 1
      rw [ih, fibSeqCallSteps_succ_succ]
      omega

theorem arrSet_length (l : List Int) (i : Nat) (v : Int) :
    (arrSet l i v).length = l.length := by
  induction l generalizing i with
  | nil => rfl
  | cons x xs ih =>
    cases i with
    | zero => rfl
    | succ i => simp [arrSet, ih]

theorem arrGet_arrSet_self (l : List Int) (i : Nat) (v : Int) (h : i < l.length) :
    arrGet (arrSet l i v) i = v := by
  induction l generalizing i with
  | nil => simp at h
  | cons x xs ih =>
    cases i with
    | zero => rfl
    | succ i =>
      simp at h
      exact ih i (by omega)

theorem arrGet_arrSet_ne (l : List Int) (i j : Nat) (v : Int) (h : j ≠ i) :
    arrGet (arrSet l i v) j = arrGet l j := by
  induction l generalizing i j with
  | nil => rfl
  | cons x xs ih =>
    cases i with
    | zero =>
      cases j with
      | zero => exact absurd rfl h
      | succ j => rfl
    | succ i =>
      cases j with
      | zero => rfl
      | succ j => exact ih i j (by omega)

theorem arrGet_replicate (m j : Nat) : arrGet (List.replicate m (0 : Int)) j = 0 := by
  induction m generalizing j with
  | zero => rfl
  | succ m ih =>
    cases j with
    | zero => rfl
    | succ j => exact ih j

theorem wrapFib_add_two (n : Nat) :
    wrapFib (n + 2) = int64wrap (wrapFib (n + 1) + wrapFib n) := by
  simp [wrapFib]

theorem dpStep_inv (l : List Int) (n i : Nat) (h2 : 2 ≤ i) (hn : i ≤ n)
    (h : DpInv l n i) : DpInv (dpStep l i) n (i + 1) := by
  obtain ⟨hlen, hlow, hhigh⟩ := h
  obtain ⟨m, rfl⟩ : ∃ m, i = m + 2 := ⟨i - 2, by omega⟩
  refine ⟨by rw [dpStep, arrSet_length, hlen], ?_, ?_⟩
  · intro j hj
    rcases Nat.lt_or_ge j (m + 2) with hlt | hge
    · rw [dpStep, arrGet_arrSet_ne _ _ _ _ (by omega)]
      exact hlow j hlt
    · have hj2 : j = m + 2 := by omega
      subst hj2
      rw [dpStep, arrGet_arrSet_self _ _ _ (by omega)]
      show int64wrap (arrGet l (m + 1) + arrGet l m) = wrapFib (m + 2)
      rw [hlow (m + 1) (by omega), hlow m (by omega), wrapFib_add_two]
  · intro j hj
    rw [dpStep, arrGet_arrSet_ne _ _ _ _ (by omega)]
    exact hhigh j (by omega)

theorem dpRun_inv (n : Nat) (cnt : Nat) : ∀ i l, 2 ≤ i → i + cnt ≤ n + 1 →
    DpInv l n i → DpInv (dpRun cnt i l) n (i + cnt) := by
  induction cnt with
  | zero => intro i l _ _ h; exact h
  | succ cnt ih =>
    intro i l h2 hle h
    have := ih (i + 1) (dpStep l i) (by omega) (by omega)
      (dpStep_inv l n i h2 (by omega) h)
    show DpInv (dpRun cnt (i + 1) (dpStep l i)) n (i + (cnt + 1))
    rwa [show i + 1 + cnt = i + (cnt + 1) from by omega] at this

theorem fib_dp_buffer_inv (n : Nat) (hn : 1 ≤ n) : DpInv (fib_dp_buffer n) n (n + 1) := by
  have hinit : DpInv (arrSet (List.replicate (n + 1) 0) 1 1) n 2 := by
    refine ⟨by rw [arrSet_length, List.length_replicate], ?_, ?_⟩
    · intro j hj
      match j with
      | 0 =>
        rw [arrGet_arrSet_ne _ _ _ _ (by omega), arrGet_replicate]
        simp [wrapFib]
      | 1 =>
        rw [arrGet_arrSet_self _ _ _ (by simp [List.length_replicate]; omega)]
        simp [wrapFib]
    · intro j hj
      rw [arrGet_arrSet_ne _ _ _ _ (by omega), arrGet_replicate]
  have hrun := dpRun_inv n (n - 1) 2 _ (by omega) (by omega) hinit
  rw [show 2 + (n - 1) = n + 1 from by omega] at hrun
  rw [fib_dp_buffer, if_pos (by omega : 0 < n)]
  exact hrun

theorem fib_dp_buffer_get (n j : Nat) (hj : j ≤ n) :
    arrGet (fib_dp_buffer n) j = wrapFib j := by
  match n, hj with
  | 0, hj =>
    have hj0 : j = 0 := by omega
    subst hj0
    decide
  | n + 1, hj =>
    exact (fib_dp_buffer_inv (n + 1) (by omega)).2.1 j (by omega)

theorem fib_dp_buffer_length (n : Nat) : (fib_dp_buffer n).length = n + 1 := by
  match n with
  | 0 => rfl
  | n + 1 => exact (fib_dp_buffer_inv (n + 1) (by omega)).1

theorem fib_dp_eq_wrapFib (n : Nat) : fib_dp n = wrapFib n :=
  fib_dp_buffer_get n n (Nat.le_refl n)

/-! ### Relating the wrapped values to the canonical Fibonacci numbers -/

theorem fibPair_eq (n : Nat) : fibPair n = (canonicalFib n, canonicalFib (n + 1)) := by
  induction n with
  | zero => rfl
  | succ n ih =>
    simp only [fibPair, ih, canonicalFib_add_two, Prod.mk.injEq]
    exact ⟨trivial, Nat.add_comm _ _⟩

theorem canonicalFib_eq_fibPair (n : Nat) : canonicalFib n = (fibPair n).1 := by
  rw [fibPair_eq]

theorem wrapFibPair_eq (n : Nat) : wrapFibPair n = (wrapFib n, wrapFib (n + 1)) := by
  induction n with
  | zero => simp [wrapFibPair, wrapFib]
  | succ n ih =>
    simp only [wrapFibPair, ih, wrapFib_add_two, Prod.mk.injEq]
    exact ⟨trivial, by rw [Int.add_comm]⟩

theorem wrapFib_eq_wrapFibPair (n : Nat) : wrapFib n = (wrapFibPair n).1 := by
  rw [wrapFibPair_eq]

theorem int64wrap_emod (z : Int) :
    int64wrap z % 18446744073709551616 = z % 18446744073709551616 := by
  unfold int64wrap
  omega

theorem wrapFib_emod (n : Nat) :
    wrapFib n % 18446744073709551616 =
      (canonicalFib n : Int) % 18446744073709551616 := by
  induction n using Nat.strong_induction_on with
  | _ n ih =>
    match n with
    | 0 => rfl
    | 1 => rfl
    | n + 2 =>
      rw [wrapFib_add_two, int64wrap_emod, Int.add_emod,
        ih (n + 1) (by omega), ih n (by omega), ← Int.add_emod,
        canonicalFib_add_two]
      push_cast
      ring_nf

set_option maxRecDepth 100000 in
theorem wrapFibPair_agrees_below_93 :
    ∀ n, n < 93 → (wrapFibPair n).1 = ((fibPair n).1 : Int) := by decide

/-- For all `n ≤ 92` (the indices whose Fibonacci number fits in a signed
64-bit integer) the dynamic-programming result is exact. -/
theorem fib_dp_eq_canonical (n : Nat) (h : n ≤ 92) :
    fib_dp n = (canonicalFib n : Int) := by
  rw [fib_dp_eq_wrapFib, wrapFib_eq_wrapFibPair, canonicalFib_eq_fibPair]
  exact wrapFibPair_agrees_below_93 n (by omega)

set_option maxRecDepth 100000 in
theorem fib_dp_93_ne_canonical : fib_dp 93 ≠ (canonicalFib 93 : Int) := by
  rw [canonicalFib_eq_fibPair]
  decide

/-- A one-entry cache {2 ↦ 1} holding the correct value of index 2. -/
theorem goodCache_single : GoodCache (FibState.mk [(2, 1)] []).cache := by
  intro k v h
  by_cases hk : (2 : Nat) = k
  · subst hk
    simp [dictGet] at h
    have hc : canonicalFib 2 = 1 := by decide
    omega
  · simp [dictGet, hk] at h

/-! ## The claims -/

/-- Claim C1: for every n ≥ 0 the memoized recursive fibonacci returns the
n-th Fibonacci number (from any correctly-filled cache, in particular the
empty one); it returns 0 for n = 0 and 1 for n = 1 without touching the
cache, and for n ≥ 2 a cache hit returns the cached value with no state
change, while a miss computes fibonacci(n-1) + fibonacci(n-2), stores the
sum under key n, and returns it. -/
theorem claim_C1 (n : Nat) (track : Bool) (s : FibState) (hg : GoodCache s.cache) :
    (fibonacci n track s).val = canonicalFib n
  ∧ fibonacci 0 track s = ⟨0, s, 0⟩
  ∧ fibonacci 1 track s = ⟨1, s, 0⟩
  ∧ (∀ v, 2 ≤ n → dictGet s.cache n = some v → fibonacci n track s = ⟨v, s, 0⟩)
  ∧ (2 ≤ n → dictGet s.cache n = none →
      (fibonacci n track s).val
        = (fibonacci (n - 1) true s).val
          + (fibonacci (n - 2) true (fibonacci (n - 1) true s).state).val
      ∧ dictGet (fibonacci n track s).state.cache n = some ((fibonacci n track s).val)) := by
  refine ⟨(fib_good n track s hg).1, rfl, rfl, ?_, ?_⟩
  · intro v h2 hv
    obtain ⟨m, rfl⟩ : ∃ m, n = m + 2 := ⟨n - 2, by omega⟩
    exact fibonacci_hit m track s v hv
  · intro h2 hnone
    obtain ⟨m, rfl⟩ : ∃ m, n = m + 2 := ⟨n - 2, by omega⟩
    refine ⟨?_, fib_self_cached (m + 2) track s (by omega)⟩
    rw [fibonacci_miss m track s hnone]
    rfl

theorem claim_C1_witness :
    GoodCache initState.cache ∧ (fibonacci 9 true initState).val = canonicalFib 9 :=
  ⟨goodCache_init, (claim_C1 9 true initState goodCache_init).1⟩

set_option maxRecDepth 100000 in
/-- Claim C2 counterexample: at n = 93 the dynamic-programming result is not
the 93rd Fibonacci number — the int64 buffer has overflowed. -/
theorem claim_C2_cex : fib_dp 93 ≠ (canonicalFib 93 : Int) := fib_dp_93_ne_canonical

/-- Claim C2 (amended): the DP implementation allocates a zero-initialized
buffer of length n+1, sets index 1 to 1 when n > 0, fills indices 2..n in
increasing order with the int64-wrapped sum of the two previous cells, and
returns cell n; the result is the exact n-th Fibonacci number for every
n ≤ 92 (while F(n) fits in a signed 64-bit integer); in particular
iterative(10) = 55, iterative(0) = 0 and iterative(1) = 1. -/
theorem claim_C2 (n : Nat) (h : n ≤ 92) :
    fib_dp n = (canonicalFib n : Int)
  ∧ (fib_dp_buffer n).length = n + 1
  ∧ (0 < n → arrGet (fib_dp_buffer n) 1 = 1)
  ∧ (∀ i, 2 ≤ i → i ≤ n → arrGet (fib_dp_buffer n) i
      = int64wrap (arrGet (fib_dp_buffer n) (i - 1) + arrGet (fib_dp_buffer n) (i - 2)))
  ∧ fib_dp n = arrGet (fib_dp_buffer n) n
  ∧ fib_dp 10 = 55 ∧ fib_dp 0 = 0 ∧ fib_dp 1 = 1 := by
  refine ⟨fib_dp_eq_canonical n h, fib_dp_buffer_length n, ?_, ?_, rfl,
    by decide, by decide, by decide⟩
  · intro hn
    rw [fib_dp_buffer_get n 1 (by omega)]
    decide
  · intro i h2 hi
    obtain ⟨m, rfl⟩ : ∃ m, i = m + 2 := ⟨i - 2, by omega⟩
    rw [fib_dp_buffer_get n (m + 2) hi,
      fib_dp_buffer_get n (m + 2 - 1) (by omega),
      fib_dp_buffer_get n (m + 2 - 2) (by omega)]
    rw [wrapFib_add_two]
    rfl

theorem claim_C2_witness :
    (10 : Nat) ≤ 92 ∧ fib_dp 10 = (canonicalFib 10 : Int) :=
  ⟨by omega, (claim_C2 10 (by omega)).1⟩

/-- Claim C3: for every n < 30 the memoized recursive implementation (from
the notebook's empty starting state), the dynamic-programming
implementation and the canonical Fibonacci function all agree. -/
theorem claim_C3 (n : Nat) (h : n < 30) :
    (fibonacci n true initState).val = canonicalFib n
  ∧ fib_dp n = (canonicalFib n : Int)
  ∧ ((fibonacci n true initState).val : Int) = fib_dp n := by
  have h1 := (fib_good n true initState goodCache_init).1
  have h2 := fib_dp_eq_canonical n (by omega)
  exact ⟨h1, h2, by rw [h1, h2]⟩

theorem claim_C3_witness :
    (10 : Nat) < 30
  ∧ (fibonacci 10 true initState).val = canonicalFib 10
  ∧ fib_dp 10 = (canonicalFib 10 : Int) :=
  ⟨by omega, (claim_C3 10 (by omega)).1, (claim_C3 10 (by omega)).2.1⟩

/-- Claim C4: for every n ≥ 0 and every starting state, calling fibonacci
twice in sequence with the same n returns the same value both times, and
the second call does not change the cached value of any index that was in
the cache after the first call. -/
theorem claim_C4 (n : Nat) (t1 t2 : Bool) (s : FibState) :
    (fibonacci n t2 (fibonacci n t1 s).state).val = (fibonacci n t1 s).val
  ∧ ∀ k v, dictGet (fibonacci n t1 s).state.cache k = some v →
      dictGet (fibonacci n t2 (fibonacci n t1 s).state).state.cache k = some v := by
  match n with
  | 0 => exact ⟨rfl, fun k v h => h⟩
  | 1 => exact ⟨rfl, fun k v h => h⟩
  | n + 2 =>
    have hself := fib_self_cached (n + 2) t1 s (by omega)
    rw [fibonacci_hit n t2 (fibonacci (n + 2) t1 s).state _ hself]
    exact ⟨rfl, fun k v h => h⟩

theorem claim_C4_witness :
    (fibonacci 6 true (fibonacci 6 true initState).state).val
      = (fibonacci 6 true initState).val
  ∧ dictGet (fibonacci 6 true (fibonacci 6 true initState).state).state.cache 6 = some 8 :=
  ⟨(claim_C4 6 true true initState).1,
    (claim_C4 6 true true initState).2 6 8 (by decide)⟩

/-- Claim C5: cache-growth invariant.  The session's cache starts empty and
is mutated only by fibonacci, so every state the program can be in has
correct values and a key set that is exactly a segment 2..m (the empty
cache is m = 1, as `fib_seg` shows).  From any such state, after
fibonacci(n) with n ≥ 2 the cache holds exactly the keys 2..n together
with every previously cached key, every stored value is the correct
Fibonacci value, and no previously stored entry is removed or changed. -/
theorem claim_C5 (n m : Nat) (track : Bool) (s : FibState)
    (_h2 : 2 ≤ n) (hm : 1 ≤ m) (hg : GoodCache s.cache) (hseg : SegCache s.cache m) :
    (∀ k, (dictGet (fibonacci n track s).state.cache k).isSome ↔
      ((2 ≤ k ∧ k ≤ n) ∨ (dictGet s.cache k).isSome))
  ∧ GoodCache (fibonacci n track s).state.cache
  ∧ ∀ k v, dictGet s.cache k = some v →
      dictGet (fibonacci n track s).state.cache k = some v := by
  refine ⟨?_, (fib_good n track s hg).2, fun k v h => fib_mono n track s k v h⟩
  intro k
  have hs := fib_seg n track s m hm hseg
  rw [hs k, hseg k, le_max_iff]
  omega

theorem claim_C5_witness :
    2 ≤ 4 ∧ 1 ≤ 1 ∧ GoodCache initState.cache ∧ SegCache initState.cache 1
  ∧ ((dictGet (fibonacci 4 true initState).state.cache 3).isSome ↔
      ((2 ≤ 3 ∧ 3 ≤ 4) ∨ (dictGet initState.cache 3).isSome)) :=
  ⟨by omega, by omega, goodCache_init, segCache_init,
    (claim_C5 4 1 true initState (by omega) (by omega) goodCache_init segCache_init).1 3⟩

/-- Claim C6 counterexample: with track=True (the default) a call of the DP
implementation appends an annotation to the global dyn_annots list — it
does modify state that persists after the call (the notebook itself
observes len(dyn_annots)). -/
theorem claim_C6_cex : (fib_dp_call 0 true []).2 ≠ ([] : List (List Int)) := by decide

/-- Claim C6 (amended): the DP implementation's return value depends only
on n — it reads no cross-call state and uses a fresh length-(n+1) buffer
each call; with track=False it modifies no global state at all, and with
track=True its only cross-call effect is appending one value annotation to
the global dyn_annots list. -/
theorem claim_C6 (n : Nat) (track : Bool) (dyn : List (List Int)) :
    (fib_dp_call n track dyn).1 = fib_dp n
  ∧ (fib_dp_call n false dyn).2 = dyn
  ∧ (fib_dp_call n true dyn).2 = dyn ++ [fib_dp_buffer n]
  ∧ (fib_dp_buffer n).length = n + 1 :=
  ⟨rfl, rfl, rfl, fib_dp_buffer_length n⟩

/-- Claim C7: along the increasing sequence of calls fibonacci(0..k) from
the empty cache, each call performs at most one compute-and-memoize step
(each index is computed as a sum of two subresults at most once), and the
total count of such steps is exactly k - 1, which is at most k: linear
in k. -/
theorem claim_C7 (k : Nat) :
    (∀ j, j ≤ k → fibSeqCallSteps j ≤ 1)
  ∧ fibSeqSteps k = k - 1
  ∧ fibSeqSteps k ≤ k :=
  ⟨fun j _ => fibSeqCallSteps_le_one j, fibSeqSteps_eq k,
    by rw [fibSeqSteps_eq]; omega⟩

theorem claim_C7_witness :
    fibSeqCallSteps 3 ≤ 1 ∧ fibSeqSteps 5 = 4 :=
  ⟨(claim_C7 5).1 3 (by omega), (claim_C7 5).2.1⟩

/-- Claim C8: the DP implementation computes in wrapping 64-bit machine
integers: its result always agrees with the canonical Fibonacci value
modulo 2^64, and at n = 93 it differs from the exact value. -/
theorem claim_C8 :
    (∀ n, fib_dp n % 2 ^ 64 = (canonicalFib n : Int) % 2 ^ 64)
  ∧ fib_dp 93 ≠ (canonicalFib 93 : Int) := by
  constructor
  · intro n
    have h : (2 : Int) ^ 64 = 18446744073709551616 := by norm_num
    rw [h, fib_dp_eq_wrapFib, wrapFib_emod]
  · exact fib_dp_93_ne_canonical

/-- Claim C9: track=False does not fully suppress the annotation side
effect: for n ≥ 3 with n and n-1 both uncached, the inner recursive calls
run with the default track=True, so the annotation list still grows during
a track=False outer call. -/
theorem claim_C9 (n : Nat) (s : FibState) (h3 : 3 ≤ n)
    (hn : dictGet s.cache n = none) (hn1 : dictGet s.cache (n - 1) = none) :
    s.annots.length < (fibonacci n false s).state.annots.length := by
  obtain ⟨m, rfl⟩ : ∃ m, n = m + 3 := ⟨n - 3, by omega⟩
  rw [fibonacci_miss (m + 1) false s hn]
  have hstrict : s.annots.length < (fibonacci (m + 1 + 1) true s).state.annots.length :=
    fib_annots_strict (m + 1 + 1) s (by omega) hn1
  have hmono := fib_annots_mono (m + 1) true (fibonacci (m + 1 + 1) true s).state
  dsimp only
  simp only [if_neg Bool.false_ne_true]
  omega

theorem claim_C9_witness :
    3 ≤ 3 ∧ dictGet initState.cache 3 = none ∧ dictGet initState.cache (3 - 1) = none
  ∧ initState.annots.length < (fibonacci 3 false initState).state.annots.length :=
  ⟨by omega, by decide, by decide, claim_C9 3 initState (by omega) (by decide) (by decide)⟩

/-- Claim C10: the value returned by the memoized recursive function is
independent of the prior cache contents, for any two starting states whose
stored values are all correct (including the empty cache). -/
theorem claim_C10 (n : Nat) (t1 t2 : Bool) (s1 s2 : FibState)
    (h1 : GoodCache s1.cache) (h2 : GoodCache s2.cache) :
    (fibonacci n t1 s1).val = (fibonacci n t2 s2).val := by
  rw [(fib_good n t1 s1 h1).1, (fib_good n t2 s2 h2).1]

theorem claim_C10_witness :
    GoodCache initState.cache ∧ GoodCache (FibState.mk [(2, 1)] []).cache
  ∧ (fibonacci 6 true initState).val = (fibonacci 6 false ⟨[(2, 1)], []⟩).val :=
  ⟨goodCache_init, goodCache_single,
    claim_C10 6 true false initState ⟨[(2, 1)], []⟩ goodCache_init goodCache_single⟩

end PybrytFib
